import Mathlib

/-!
Verification development for `mt_meld.py` (jonsafari/mt-meld).

The program is a single linear pipeline: read one line from each of N
parallel files, apply a shared normalization chain
(`process_line`), and print a formatted side-by-side block per source
line.  This file gives a shallow embedding of the program:

* strings are Lean `String`s (lists of characters);
* file streams are `List String` of raw lines (Python's `readline`
  returns `""` once a stream is exhausted, modelled by `readline`);
* the external detokenizer and the online translator are opaque
  line-in/line-out collaborators, passed as function arguments;
* fallible code (`open`, indexing) returns `Except`.
-/

namespace MtMeld

/-- ASCII lower-case table, pairing each of `A`..`Z` with `a`..`z`.
Models Python's `str.lower` on the character range the program's
model files and examples exercise. -/
def lowerTable : List (Char × Char) :=
  "ABCDEFGHIJKLMNOPQRSTUVWXYZ".data.zip "abcdefghijklmnopqrstuvwxyz".data

/-- Lower-case one character (ASCII model of Python `str.lower`). -/
def lowerChar (c : Char) : Char :=
  match lowerTable.find? (fun p => p.1 == c) with
  | some p => p.2
  | none => c

/-- `s.lower()`. -/
def pyLowerStr (s : String) : String := String.mk (s.data.map lowerChar)

/-- `s.rstrip()`: remove trailing whitespace. -/
def pyRstrip (s : String) : String :=
  String.mk (s.data.reverse.dropWhile Char.isWhitespace).reverse

/-- Helper for `str.split()`: accumulate the current (reversed) token
while scanning, emitting a token at every whitespace run boundary. -/
def splitWsAcc : List Char → List Char → List (List Char)
  | acc, [] => if acc.isEmpty then [] else [acc.reverse]
  | acc, c :: cs =>
    if c.isWhitespace then
      if acc.isEmpty then splitWsAcc [] cs else acc.reverse :: splitWsAcc [] cs
    else splitWsAcc (c :: acc) cs

/-- `s.split()` with no separator argument: split on whitespace runs,
discarding empty tokens. -/
def pySplit (l : List Char) : List (List Char) := splitWsAcc [] l

/-- `s.split()` at the `String` level. -/
def pySplitStr (s : String) : List String :=
  (pySplit s.data).map (fun t => String.mk t)

/-- One scanning step bounded by fuel: replace each non-overlapping
occurrence of `pat` by `rep`, scanning left to right (the semantics of
`re.sub` with a literal pattern, and of `str.replace`).  The fuel is
always at least the length of the scanned list, so it never runs out. -/
def subAllF (pat rep : List Char) : Nat → List Char → List Char
  | _, [] => []
  | 0, l => l
  | fuel + 1, c :: cs =>
    if pat.isPrefixOf (c :: cs) then rep ++ subAllF pat rep fuel ((c :: cs).drop pat.length)
    else c :: subAllF pat rep fuel cs

/-- Replace every occurrence of `pat` by `rep` in `s`, left to right,
non-overlapping. -/
def subAll (pat rep s : List Char) : List Char := subAllF pat rep s.length s

/-- `re.sub(pat, rep, s)` for a literal pattern, at the `String` level. -/
def pyReplace (s pat rep : String) : String :=
  String.mk (subAll pat.data rep.data s.data)

/-- The apostrophe character (code point 39). -/
def apos : Char := Char.ofNat 39

/-- The one-character apostrophe string, the replacement used by the
`&apos;` fix in `process_line`. -/
def aposStr : String := String.mk [apos]

/-- A Python `dict` from string to string: an association list in
insertion order, updated in place on key collision. -/
abbrev TCDict := List (String × String)

/-- `d[k]` lookup (as an `Option`). -/
def dictLookup (d : TCDict) (k : String) : Option String :=
  (List.find? (fun p => p.1 == k) d).map (fun p => p.2)

/-- `d[k] = v`: overwrite in place if the key is present, append
otherwise (Python 3.7+ dict semantics). -/
def dictInsert (d : TCDict) (k v : String) : TCDict :=
  if List.any d (fun p => p.1 == k) then
    List.map (fun p => if p.1 == k then (k, v) else p) d
  else d ++ [(k, v)]

/-- Errors the embedded Python code can raise. -/
inductive PyError
  /-- `open(None)`: `--truecase` was not supplied, yet `main` passes
  `cmd_args.truecase` (which is `None`) straight to `open`. -/
  | typeError
  /-- `open(path)` on a path that is not in the file system. -/
  | fileNotFound
  /-- `split_line[0]` on an empty list. -/
  | indexError
  /-- The local variable `detok` of `process_lines` referenced before
  assignment: it is bound only under `if cmd_args.detok:` (line 91),
  yet the loop passes it to `process_line` unconditionally
  (line 111), so a falsy `detok` value (only reachable via
  `--detok ''`) crashes the first iteration before anything is
  printed. -/
  | unboundLocalError
deriving DecidableEq

/-- `parse_truecase_model`, applied to the list of lines of the model
file: for every line insert `lowercased(first token) -> first token`
into the dict; indexing the token list of an all-whitespace line
raises `IndexError`. -/
def parse_truecase_model (lines : List String) : Except PyError TCDict :=
  lines.foldlM
    (fun d line =>
      match pySplitStr line with
      | [] => .error .indexError
      | w :: _ => .ok (dictInsert d (pyLowerStr w) w))
    ([] : TCDict)

/-- A file system: mapping from path to file contents (list of lines). -/
abbrev FileSys := List (String × List String)

/-- `open(path)` followed by reading all lines.  `open(None)` raises
`TypeError`; a missing path raises a file-open error. -/
def pyOpenLines (fs : FileSys) : Option String → Except PyError (List String)
  | none => .error .typeError
  | some p =>
    match List.find? (fun e => e.1 = p) fs with
    | some e => .ok e.2
    | none => .error .fileNotFound

/-- The recognized command-line options that reach the processing
code, with the argparse defaults of `main`:
`--lc` and `--del_bpe` are store-true flags (default `false`);
`--truecase` and `--google` default to `None` (modelled `none`);
`--detok` is a *string* option with default `"en"`;
`--head` defaults to `sys.maxsize`. -/
structure CmdArgs where
  lc : Bool
  truecase : Option String
  del_bpe : Bool
  detok : String
  head : Nat
  google : Option String

/-- The `cmd_args` produced by an invocation that passes none of the
optional flags (argparse defaults). -/
def defaultCmdArgs : CmdArgs :=
  { lc := false, truecase := none, del_bpe := false, detok := "en",
    head := 9223372036854775807, google := none }

/-- Python truthiness of an optional string option: `None` and `""`
are falsy. -/
def truthy : Option String → Bool
  | none => false
  | some s => !(s == "")

/-- `main` line 169: `parse_truecase_model(cmd_args.truecase)` is
called unconditionally, on whatever value `--truecase` carries
(`None` when the option is absent). -/
def startup_load_truecase (fs : FileSys) (cmd : CmdArgs) : Except PyError TCDict :=
  (pyOpenLines fs cmd.truecase).bind parse_truecase_model

/-- The token substitution of `truecase_line`: look the lowercased
token up in the dict and substitute the mapped value if found. -/
def substTok (d : TCDict) (w : String) : String :=
  match dictLookup d (pyLowerStr w) with
  | some v => v
  | none => w

/-- The body of `truecase_line`'s `for i in range(len(tokens))` loop:
if `tokens[i].lower()` is a key, assign `tokens[i] = dict[...]`. -/
def tcStep (d : TCDict) (ts : List String) (i : Nat) : List String :=
  match ts[i]? with
  | some word =>
    match dictLookup d (pyLowerStr word) with
    | some v => ts.set i v
    | none => ts
  | none => ts

/-- `truecase_line(line, truecase_dict)`: split into whitespace
tokens, substitute each token whose lowercased form is a key (via an
in-place loop over the indices `range(len(tokens))`), rejoin with
single spaces. -/
def truecase_line (line : String) (d : TCDict) : String :=
  String.intercalate " "
    ((List.range (pySplitStr line).length).foldl (tcStep d) (pySplitStr line))

/-- The truecasing step as the specification words it: split the line
into whitespace-delimited tokens, map each token through the lookup
substitution, rejoin with single spaces. -/
def truecase_spec (line : String) (d : TCDict) : String :=
  String.intercalate " " ((pySplitStr line).map (substTok d))

/-- Case step of `process_line`: `if cmd_args.lc: line = line.lower()
elif cmd_args.truecase: line = truecase_line(line, truecase_dict)`. -/
def caseStep (cmd : CmdArgs) (d : TCDict) (s : String) : String :=
  if cmd.lc then pyLowerStr s
  else if truthy cmd.truecase then truecase_line s d
  else s

/-- BPE step of `process_line`: `re_bpe.sub('', line)` with
`re_bpe = re.compile("@@ ")`. -/
def bpeStep (cmd : CmdArgs) (s : String) : String :=
  if cmd.del_bpe then pyReplace s "@@ " "" else s

/-- Detokenization step of `process_line`: enabled whenever
`cmd_args.detok` is truthy (a nonempty string); the collaborator `f`
receives `line.split()` and its output replaces the line. -/
def detokStep (cmd : CmdArgs) (f : List String → String) (s : String) : String :=
  if cmd.detok == "" then s else f (pySplitStr s)

/-- `process_line(cmd_args, line, re_bpe, detok, truecase_dict)`:
rstrip, optional case step, optional BPE deletion, optional
detokenization, then the unconditional `&apos;` fix. -/
def process_line (cmd : CmdArgs) (line : String) (f : List String → String)
    (d : TCDict) : String :=
  pyReplace (detokStep cmd f (bpeStep cmd (caseStep cmd d (pyRstrip line)))) "&apos;" aposStr

/-- The line printed by `print_hyp(hyp_num, ref_line, hyp_line)`:
`"MT%i: "` then the `":-) "` marker on exact equality with the
reference (four spaces otherwise), then the hypothesis text. -/
def print_hyp_str (hyp_num : Nat) (ref_line hyp_line : String) : String :=
  "MT" ++ toString hyp_num ++ ": " ++ (if ref_line == hyp_line then ":-) " else "    ") ++ hyp_line

/-- `readline()` on a stream modelled as the list of remaining lines:
at end of file Python returns the empty string and leaves the stream
where it is. -/
def readline : List String → String × List String
  | [] => ("", [])
  | l :: ls => (l, ls)

/-- The printed lines of the `for hyp in hyps` loop: `hyp_num` starts
at `n` and increments; each raw hypothesis line is normalized by
`process_line` and rendered by `print_hyp`. -/
def hyp_outputs (cmd : CmdArgs) (f : List String → String) (d : TCDict)
    (refl : String) : Nat → List String → List String
  | _, [] => []
  | n, h :: hs =>
    print_hyp_str n refl (process_line cmd h f d) :: hyp_outputs cmd f d refl (n + 1) hs

/-- The reference line value used inside one loop iteration:
`ref_line = ''` when no reference stream is configured, the
normalized line read from the reference stream otherwise. -/
def refLineOf (cmd : CmdArgs) (f : List String → String) (d : TCDict) :
    Option String → String
  | none => ""
  | some r => process_line cmd r f d

/-- The `Ref:` line block: printed only when a reference stream is
configured. -/
def refOut (cmd : CmdArgs) (f : List String → String) (d : TCDict) :
    Option String → List String
  | none => []
  | some r => ["Ref:     " ++ process_line cmd r f d]

/-- The synthetic Google-translation hypothesis block: present when
`--google` carries a truthy language code; the translated source is
normalized with an *empty* truecase dict and printed with ordinal
`numHyps + 1`. -/
def googleOut (cmd : CmdArgs) (f : List String → String) (g : String → String → String)
    (refl s : String) (numHyps : Nat) : List String :=
  match cmd.google with
  | none => []
  | some tgt =>
    if tgt == "" then []
    else [print_hyp_str (numHyps + 1) refl (process_line cmd (g s tgt) f [])]

/-- The lines printed for one aligned group: the body of one
`for src_line in src` iteration that executes, given the raw lines
read this iteration.  Such an iteration presupposes the local `detok`
is bound (`cmd_args.detok` truthy) — with a falsy `detok` value the
loop raises `UnboundLocalError` instead of reaching any of these
prints (see `process_lines_aux`).  The group is: the `Src:` line, the
`Ref:` line if a reference is configured (`ref_line` stays `''`
otherwise), one `MTk:` line per hypothesis, the synthetic Google
hypothesis if configured, and the trailing blank line. -/
def group_lines (cmd : CmdArgs) (f : List String → String) (g : String → String → String)
    (d : TCDict) (src_raw : String) (ref_raw : Option String) (hyp_raws : List String) :
    List String :=
  ("Src:     " ++ process_line cmd src_raw f d)
    :: (refOut cmd f d ref_raw
        ++ hyp_outputs cmd f d (refLineOf cmd f d ref_raw) 1 hyp_raws
        ++ googleOut cmd f g (refLineOf cmd f d ref_raw)
            (process_line cmd src_raw f d) hyp_raws.length
        ++ [""])

/-- The main loop of `process_lines`: `line_num` counts processed
source lines; once `line_num > cmd_args.head` the loop breaks; each
iteration reads one raw line from the reference stream (if
configured) and from every hypothesis stream, and prints one group.
The local `detok` is assigned only under `if cmd_args.detok:`
(line 91) but is passed to `process_line` unconditionally as the
first statement of the loop body (line 111): when `cmd_args.detok`
is falsy (reachable only via `--detok ''`) every iteration that gets
past the `head` check raises `UnboundLocalError` *before* printing
anything of its group.  The iteration body that does execute — one
group, modelled by `group_lines` — therefore always runs with the
bound detokenizer `f`. -/
def process_lines_aux (cmd : CmdArgs) (f : List String → String)
    (g : String → String → String) (d : TCDict) :
    Nat → List String → Option (List String) → List (List String) →
    Except PyError (List String)
  | _, [], _, _ => .ok []
  | n, s :: rest, ref, hyps =>
    if n + 1 > cmd.head then .ok []
    else if cmd.detok == "" then .error .unboundLocalError
    else
      match process_lines_aux cmd f g d (n + 1) rest (ref.map (fun rl => (readline rl).2))
          (hyps.map (fun hl => (readline hl).2)) with
      | .ok out =>
        .ok (group_lines cmd f g d s (ref.map (fun rl => (readline rl).1))
              (hyps.map (fun hl => (readline hl).1)) ++ out)
      | .error e => .error e

/-- `process_lines(cmd_args, src, ref, hyps, truecase_dict)`: the full
printed output as a list of lines, for source lines `src`, optional
reference stream `ref`, hypothesis streams `hyps`, detokenizer `f`
and online translator `g` — or the `UnboundLocalError` raised on the
first processed iteration when `cmd_args.detok` is falsy. -/
def process_lines (cmd : CmdArgs) (f : List String → String)
    (g : String → String → String) (d : TCDict) (src : List String)
    (ref : Option (List String)) (hyps : List (List String)) :
    Except PyError (List String) :=
  process_lines_aux cmd f g d 0 src ref hyps

/-- The number of blank lines in a printed transcript; every group
ends with exactly one blank line and contains no other blank line, so
this counts the printed groups. -/
def countBlank : List String → Nat
  | [] => 0
  | s :: r => (if s == "" then 1 else 0) + countBlank r

/-- Specification-side description of the loaded truecase mapping:
the value at key `k` is the first token of the *last* model line whose
first token lowercases to `k` (last-write-wins). -/
def lastWinsLookup (lines : List String) (k : String) : Option String :=
  lines.reverse.findSome? (fun l =>
    match pySplitStr l with
    | w :: _ => if pyLowerStr w == k then some w else none
    | [] => none)

/-- One model line's effect on the truecase dict, totalized (the
effect of lines on which `parse_truecase_model` does not raise). -/
def tcModelStep (d : TCDict) (line : String) : TCDict :=
  match pySplitStr line with
  | w :: _ => dictInsert d (pyLowerStr w) w
  | [] => d

/-- A character list has no trailing whitespace. -/
def noTrailWs (l : List Char) : Prop :=
  ∀ c, l.getLast? = some c → c.isWhitespace = false

/-! ### Properties of `subAll` (literal `re.sub` / `str.replace`) -/

theorem subAllF_congr (pat rep : List Char) (hp : pat ≠ []) :
    ∀ n m s, s.length ≤ n → s.length ≤ m → subAllF pat rep n s = subAllF pat rep m s := by
  intro n
  induction n with
  | zero =>
    intro m s hs _
    have hsnil : s = [] := List.length_eq_zero.mp (Nat.le_zero.mp hs)
    subst hsnil
    cases m <;> rfl
  | succ n ih =>
    intro m s hs hm
    cases s with
    | nil => cases m <;> rfl
    | cons c cs =>
      cases m with
      | zero => simp at hm
      | succ m' =>
        have hpos : 0 < pat.length := List.length_pos.mpr hp
        simp only [List.length_cons] at hs hm
        simp only [subAllF]
        by_cases hpre : pat.isPrefixOf (c :: cs) = true
        · rw [if_pos hpre, if_pos hpre]
          congr 1
          have hd : ((c :: cs).drop pat.length).length = cs.length + 1 - pat.length := by
            simp [List.length_drop]
          exact ih m' _ (by omega) (by omega)
        · rw [if_neg hpre, if_neg hpre]
          congr 1
          exact ih m' cs (by omega) (by omega)

theorem subAll_cons_pos (pat rep : List Char) (hp : pat ≠ []) (c : Char) (cs : List Char)
    (h : pat.isPrefixOf (c :: cs) = true) :
    subAll pat rep (c :: cs) = rep ++ subAll pat rep ((c :: cs).drop pat.length) := by
  have hpos : 0 < pat.length := List.length_pos.mpr hp
  unfold subAll
  rw [List.length_cons]
  simp only [subAllF]
  rw [if_pos h]
  congr 1
  apply subAllF_congr pat rep hp
  · simp only [List.length_drop, List.length_cons]
    omega
  · exact le_refl _

theorem subAll_cons_neg (pat rep : List Char) (c : Char) (cs : List Char)
    (h : ¬ pat.isPrefixOf (c :: cs) = true) :
    subAll pat rep (c :: cs) = c :: subAll pat rep cs := by
  unfold subAll
  rw [List.length_cons]
  simp only [subAllF]
  rw [if_neg h]

theorem subAll_cons_ne_nil (pat : List Char) (q c : Char) (cs : List Char) (hp : pat ≠ []) :
    subAll pat [q] (c :: cs) ≠ [] := by
  by_cases hpre : pat.isPrefixOf (c :: cs) = true
  · rw [subAll_cons_pos pat [q] hp c cs hpre]
    simp
  · rw [subAll_cons_neg pat [q] c cs hpre]
    simp

/-- A pattern-free word (one avoiding the single replacement
character) that is a prefix of the replaced string was already a
prefix of the original string. -/
theorem subAll_prefix_transfer (pat : List Char) (q : Char) (hp : pat ≠ []) :
    ∀ n s u, s.length ≤ n → q ∉ u → u <+: subAll pat [q] s → u <+: s := by
  intro n
  induction n with
  | zero =>
    intro s u hs _ hu
    have hsnil : s = [] := List.length_eq_zero.mp (Nat.le_zero.mp hs)
    subst hsnil
    have : u = [] := List.prefix_nil.mp hu
    subst this
    exact List.nil_prefix
  | succ n ih =>
    intro s u hs hq hu
    cases s with
    | nil =>
      have : u = [] := List.prefix_nil.mp hu
      subst this
      exact List.nil_prefix
    | cons c cs =>
      have hpos : 0 < pat.length := List.length_pos.mpr hp
      simp only [List.length_cons] at hs
      by_cases hpre : pat.isPrefixOf (c :: cs) = true
      · rw [subAll_cons_pos pat [q] hp c cs hpre] at hu
        cases u with
        | nil => exact List.nil_prefix
        | cons a u₂ =>
          have := (List.cons_prefix_cons.mp hu).1
          exact absurd (this ▸ List.mem_cons_self a u₂) hq
      · rw [subAll_cons_neg pat [q] c cs hpre] at hu
        cases u with
        | nil => exact List.nil_prefix
        | cons a u₂ =>
          obtain ⟨hac, hu₂⟩ := List.cons_prefix_cons.mp hu
          have hq₂ : q ∉ u₂ := fun hm => hq (List.mem_cons_of_mem a hm)
          exact List.cons_prefix_cons.mpr ⟨hac, ih cs u₂ (by omega) hq₂ hu₂⟩

/-- After replacing every occurrence of `pat` by a single character
that neither starts nor occurs in `pat`, the result contains no
occurrence of `pat` at all. -/
theorem subAll_no_occurrence (p₀ : Char) (pt : List Char) (q : Char)
    (hq₀ : q ≠ p₀) (hq : q ∉ p₀ :: pt) :
    ∀ n s, s.length ≤ n → ¬ ((p₀ :: pt) <:+: subAll (p₀ :: pt) [q] s) := by
  have hp : p₀ :: pt ≠ [] := List.cons_ne_nil p₀ pt
  have hpos : 0 < (p₀ :: pt).length := List.length_pos.mpr hp
  intro n
  induction n with
  | zero =>
    intro s hs hinf
    have hsnil : s = [] := List.length_eq_zero.mp (Nat.le_zero.mp hs)
    subst hsnil
    exact List.cons_ne_nil p₀ pt (List.infix_nil.mp hinf)
  | succ n ih =>
    intro s hs hinf
    cases s with
    | nil => exact List.cons_ne_nil p₀ pt (List.infix_nil.mp hinf)
    | cons c cs =>
      simp only [List.length_cons] at hs
      by_cases hpre : (p₀ :: pt).isPrefixOf (c :: cs) = true
      · rw [subAll_cons_pos _ [q] hp c cs hpre] at hinf
        rcases List.infix_cons_iff.mp hinf with hpref | htail
        · exact hq₀ ((List.cons_prefix_cons.mp hpref).1).symm
        · exact ih _ (by simp [List.length_drop]; omega) htail
      · rw [subAll_cons_neg _ [q] c cs hpre] at hinf
        rcases List.infix_cons_iff.mp hinf with hpref | htail
        · obtain ⟨hc, hpt⟩ := List.cons_prefix_cons.mp hpref
          have hqpt : q ∉ pt := fun hm => hq (List.mem_cons_of_mem p₀ hm)
          have : pt <+: cs := subAll_prefix_transfer _ q hp cs.length cs pt (le_refl _) hqpt hpt
          exact hpre (List.isPrefixOf_iff_prefix.mpr (List.cons_prefix_cons.mpr ⟨hc, this⟩))
        · exact ih cs (by omega) htail

/-- On a string with no occurrence of the pattern, `subAll` is the
identity. -/
theorem subAll_id_of_no_occurrence (pat rep : List Char) (hp : pat ≠ []) :
    ∀ n s, s.length ≤ n → ¬ (pat <:+: s) → subAll pat rep s = s := by
  intro n
  induction n with
  | zero =>
    intro s hs _
    have hsnil : s = [] := List.length_eq_zero.mp (Nat.le_zero.mp hs)
    subst hsnil
    rfl
  | succ n ih =>
    intro s hs hno
    cases s with
    | nil => rfl
    | cons c cs =>
      simp only [List.length_cons] at hs
      by_cases hpre : pat.isPrefixOf (c :: cs) = true
      · exact absurd (List.IsPrefix.isInfix (List.isPrefixOf_iff_prefix.mp hpre)) hno
      · rw [subAll_cons_neg pat rep c cs hpre]
        have : ¬ (pat <:+: cs) := fun h => hno (List.infix_cons h)
        rw [ih cs (by omega) this]

/-- Every character of the replaced string comes from the original
string or from the replacement. -/
theorem subAll_mem (pat rep : List Char) (hp : pat ≠ []) :
    ∀ n s c, s.length ≤ n → c ∈ subAll pat rep s → c ∈ s ∨ c ∈ rep := by
  intro n
  induction n with
  | zero =>
    intro s c hs hc
    have hsnil : s = [] := List.length_eq_zero.mp (Nat.le_zero.mp hs)
    subst hsnil
    exact absurd hc (List.not_mem_nil c)
  | succ n ih =>
    intro s c hs hc
    cases s with
    | nil => exact absurd hc (List.not_mem_nil c)
    | cons c₀ cs =>
      have hpos : 0 < pat.length := List.length_pos.mpr hp
      simp only [List.length_cons] at hs
      by_cases hpre : pat.isPrefixOf (c₀ :: cs) = true
      · rw [subAll_cons_pos pat rep hp c₀ cs hpre] at hc
        rcases List.mem_append.mp hc with hrep | hrec
        · exact Or.inr hrep
        · rcases ih _ c (by simp [List.length_drop]; omega) hrec with hmem | hrep
          · exact Or.inl (List.mem_of_mem_drop hmem)
          · exact Or.inr hrep
      · rw [subAll_cons_neg pat rep c₀ cs hpre] at hc
        rcases List.mem_cons.mp hc with hhead | htail
        · exact Or.inl (hhead ▸ List.mem_cons_self c₀ cs)
        · rcases ih cs c (by omega) htail with hmem | hrep
          · exact Or.inl (List.mem_cons_of_mem c₀ hmem)
          · exact Or.inr hrep

theorem getLast?_append_ne {α : Type} (l l' : List α) (h : l' ≠ []) :
    (l ++ l').getLast? = l'.getLast? := by
  rw [List.getLast?_append]
  cases hbl : l'.getLast? with
  | none => exact absurd (List.getLast?_eq_none.mp hbl) h
  | some x => rfl

/-- The last character of the replaced string is the last character
of the original string, or the replacement character. -/
theorem subAll_getLast (pat : List Char) (q : Char) (hp : pat ≠ []) :
    ∀ n s, s.length ≤ n →
      subAll pat [q] s = [] ∨ (subAll pat [q] s).getLast? = s.getLast? ∨
        (subAll pat [q] s).getLast? = some q := by
  intro n
  induction n with
  | zero =>
    intro s hs
    have hsnil : s = [] := List.length_eq_zero.mp (Nat.le_zero.mp hs)
    subst hsnil
    exact Or.inl rfl
  | succ n ih =>
    intro s hs
    cases s with
    | nil => exact Or.inl rfl
    | cons c cs =>
      have hpos : 0 < pat.length := List.length_pos.mpr hp
      simp only [List.length_cons] at hs
      by_cases hpre : pat.isPrefixOf (c :: cs) = true
      · rw [subAll_cons_pos pat [q] hp c cs hpre]
        set d := (c :: cs).drop pat.length with hd
        rcases ih d (by simp [hd, List.length_drop]; omega) with hnil | heq | hlast
        · rw [hnil]
          exact Or.inr (Or.inr rfl)
        · cases hr : subAll pat [q] d with
          | nil =>
            exact Or.inr (Or.inr rfl)
          | cons b r₂ =>
            have hdne : d ≠ [] := by
              intro hdnil
              rw [hdnil] at hr
              exact List.cons_ne_nil b r₂ hr.symm
            have hds : (c :: cs).getLast? = d.getLast? := by
              conv_lhs => rw [← List.take_append_drop pat.length (c :: cs)]
              rw [← hd]
              exact getLast?_append_ne _ _ hdne
            right; left
            rw [getLast?_append_ne _ _ (List.cons_ne_nil b r₂), ← hr, hds]
            exact heq
        · cases hr : subAll pat [q] d with
          | nil =>
            exact Or.inr (Or.inr rfl)
          | cons b r₂ =>
            right; right
            rw [getLast?_append_ne _ _ (List.cons_ne_nil b r₂), ← hr]
            exact hlast
      · rw [subAll_cons_neg pat [q] c cs hpre]
        cases cs with
        | nil =>
          right; left
          rfl
        | cons a cs₂ =>
          have hrne : subAll pat [q] (a :: cs₂) ≠ [] := subAll_cons_ne_nil pat q a cs₂ hp
          cases hr : subAll pat [q] (a :: cs₂) with
          | nil => exact absurd hr hrne
          | cons b r₂ =>
            rcases ih (a :: cs₂) (by omega) with hnil | heq | hlast
            · exact absurd hnil hrne
            · right; left
              rw [List.getLast?_cons_cons, List.getLast?_cons_cons, ← hr]
              exact heq
            · right; right
              rw [List.getLast?_cons_cons, ← hr]
              exact hlast

/-- Cons-free wrapper of `subAll_no_occurrence`. -/
theorem subAll_no_occurrence_of_ne (pat : List Char) (q : Char) (hne : pat ≠ [])
    (hq0 : pat.head? ≠ some q) (hq : q ∉ pat) (s : List Char) :
    ¬ (pat <:+: subAll pat [q] s) := by
  cases pat with
  | nil => exact absurd rfl hne
  | cons p₀ pt =>
    apply subAll_no_occurrence p₀ pt q _ hq s.length s (le_refl _)
    intro hqp
    exact hq0 (by rw [hqp]; rfl)

/-- `subAll` with a non-whitespace single-character replacement
preserves absence of trailing whitespace. -/
theorem noTrailWs_subAll (pat : List Char) (q : Char) (hp : pat ≠ [])
    (hqws : q.isWhitespace = false) (s : List Char) (hs : noTrailWs s) :
    noTrailWs (subAll pat [q] s) := by
  intro c hc
  rcases subAll_getLast pat q hp s.length s (le_refl _) with hnil | heq | hlast
  · rw [hnil] at hc
    exact absurd hc (by simp)
  · exact hs c (heq.symm.trans hc)
  · have hqc : q = c := by
      have h2 := hlast.symm.trans hc
      injection h2
    rw [← hqc]
    exact hqws

/-! ### Trailing whitespace: `rstrip` -/

theorem head?_dropWhile (p : Char → Bool) (l : List Char) :
    ∀ c, (l.dropWhile p).head? = some c → p c = false := by
  induction l with
  | nil =>
    intro c hc
    simp [List.dropWhile] at hc
  | cons a l ih =>
    intro c hc
    rw [List.dropWhile_cons] at hc
    by_cases hpa : p a = true
    · rw [if_pos hpa] at hc
      exact ih c hc
    · rw [if_neg hpa] at hc
      have hac : a = c := by injection hc
      cases hb : p a with
      | true => exact absurd hb hpa
      | false => rw [← hac]; exact hb

theorem dropWhile_eq_self (p : Char → Bool) (l : List Char)
    (h : ∀ c, l.head? = some c → p c = false) : l.dropWhile p = l := by
  cases l with
  | nil => rfl
  | cons a l =>
    rw [List.dropWhile_cons, if_neg]
    rw [h a rfl]
    exact Bool.false_ne_true

theorem noTrailWs_pyRstrip (s : String) : noTrailWs (pyRstrip s).data := by
  intro c hc
  have : ((s.data.reverse.dropWhile Char.isWhitespace).reverse).getLast? = some c := hc
  rw [List.getLast?_reverse] at this
  exact head?_dropWhile Char.isWhitespace s.data.reverse c this

theorem pyRstrip_eq_self (s : String) (h : noTrailWs s.data) : pyRstrip s = s := by
  unfold pyRstrip
  rw [dropWhile_eq_self]
  · rw [List.reverse_reverse]
  · intro c hc
    rw [List.head?_reverse] at hc
    exact h c hc

/-! ### Lower-casing -/

theorem lowerChar_table_fix : ∀ p ∈ lowerTable, lowerChar p.2 = p.2 := by decide

theorem lowerChar_table_ws : ∀ p ∈ lowerTable,
    p.2.isWhitespace = false ∧ p.1.isWhitespace = false := by decide

theorem lowerChar_spec (c : Char) :
    lowerChar c = c ∨ ∃ p, p ∈ lowerTable ∧ p.1 = c ∧ lowerChar c = p.2 := by
  unfold lowerChar
  cases h : lowerTable.find? (fun p => p.1 == c) with
  | none => exact Or.inl rfl
  | some p =>
    have hbeq := List.find?_some h
    exact Or.inr ⟨p, List.mem_of_find?_eq_some h, eq_of_beq hbeq, rfl⟩

theorem lowerChar_idem (c : Char) : lowerChar (lowerChar c) = lowerChar c := by
  rcases lowerChar_spec c with h | ⟨p, hp, _, h⟩
  · rw [h]
    exact h
  · rw [h]
    exact lowerChar_table_fix p hp

theorem lowerChar_ws (c : Char) : (lowerChar c).isWhitespace = c.isWhitespace := by
  rcases lowerChar_spec c with h | ⟨p, hp, hpc, h⟩
  · rw [h]
  · rw [h, ← hpc, (lowerChar_table_ws p hp).1, (lowerChar_table_ws p hp).2]

theorem lowerChar_apos : lowerChar apos = apos := by decide

theorem noTrailWs_map_lowerChar (l : List Char) (h : noTrailWs l) :
    noTrailWs (l.map lowerChar) := by
  intro c hc
  rw [← List.reverse_reverse (l.map lowerChar), List.getLast?_reverse,
    ← List.map_reverse, List.head?_map] at hc
  cases hh : l.reverse.head? with
  | none => rw [hh] at hc; exact absurd hc (by simp)
  | some a =>
    rw [hh] at hc
    have hca : lowerChar a = c := by injection hc
    rw [← hca, lowerChar_ws]
    exact h a (by rw [← List.head?_reverse]; exact hh)

theorem map_lowerChar_eq_self (l : List Char) (h : ∀ c ∈ l, lowerChar c = c) :
    l.map lowerChar = l := by
  induction l with
  | nil => rfl
  | cons a l ih =>
    simp only [List.map_cons]
    rw [h a (List.mem_cons_self a l), ih (fun c hc => h c (List.mem_cons_of_mem a hc))]

/-! ### The `&apos;` fix inside the normalization chain -/

theorem apos_pat_ne : "&apos;".data ≠ [] := by decide

theorem apos_pat_head : "&apos;".data.head? ≠ some apos := by decide

theorem apos_pat_mem : apos ∉ "&apos;".data := by decide

theorem apos_ws : apos.isWhitespace = false := by decide

theorem aposFix_no_occurrence (s : String) :
    ¬ ("&apos;".data <:+: (pyReplace s "&apos;" aposStr).data) :=
  subAll_no_occurrence_of_ne _ apos apos_pat_ne apos_pat_head apos_pat_mem s.data

theorem aposFix_noTrailWs (s : String) (h : noTrailWs s.data) :
    noTrailWs (pyReplace s "&apos;" aposStr).data :=
  noTrailWs_subAll _ apos apos_pat_ne apos_ws s.data h

theorem aposFix_id (s : String) (h : ¬ ("&apos;".data <:+: s.data)) :
    pyReplace s "&apos;" aposStr = s := by
  show String.mk (subAll "&apos;".data [apos] s.data) = s
  rw [subAll_id_of_no_occurrence _ _ apos_pat_ne s.data.length s.data (le_refl _) h]

theorem detokStep_id (cmd : CmdArgs) (f : List String → String) (s : String)
    (h : cmd.detok = "") : detokStep cmd f s = s := by
  unfold detokStep
  rw [h]
  simp

theorem bpeStep_id (cmd : CmdArgs) (s : String) (h : cmd.del_bpe = false) :
    bpeStep cmd s = s := by
  unfold bpeStep
  rw [h]
  simp

theorem caseStep_no_truecase (cmd : CmdArgs) (d : TCDict) (s : String)
    (h : truthy cmd.truecase = false) :
    caseStep cmd d s = if cmd.lc then pyLowerStr s else s := by
  unfold caseStep
  rw [h]
  simp

/-- After one pass of the reduced chain (rstrip, optional lowercase,
apostrophe fix), a second pass is the identity. -/
theorem process_line_stable (cmd : CmdArgs) (f : List String → String) (d : TCDict)
    (mid : String) (h1 : cmd.detok = "") (h2 : cmd.del_bpe = false)
    (hTrail : noTrailWs mid.data)
    (hcase : caseStep cmd d (pyReplace mid "&apos;" aposStr) = pyReplace mid "&apos;" aposStr) :
    process_line cmd (pyReplace mid "&apos;" aposStr) f d = pyReplace mid "&apos;" aposStr := by
  unfold process_line
  rw [pyRstrip_eq_self _ (aposFix_noTrailWs mid hTrail), hcase,
    bpeStep_id cmd _ h2, detokStep_id cmd f _ h1]
  exact aposFix_id _ (aposFix_no_occurrence mid)

/-! ### Python dict semantics -/

theorem find?_map_upd_hit (k v : String) :
    ∀ d : TCDict, d.any (fun p => p.1 == k) = true →
      List.find? (fun p => p.1 == k)
        (d.map (fun p => if p.1 == k then (k, v) else p)) = some (k, v) := by
  intro d
  induction d with
  | nil => intro h; simp at h
  | cons a d ih =>
    intro h
    by_cases ha : (a.1 == k) = true
    · simp only [List.map_cons, if_pos ha]
      exact List.find?_cons_of_pos (p := fun q : String × String => q.1 == k) _ (beq_self_eq_true k)
    · simp only [List.map_cons, if_neg ha]
      rw [List.find?_cons_of_neg (p := fun q : String × String => q.1 == k) _ ha]
      apply ih
      rw [List.any_cons] at h
      cases hb : (a.1 == k) with
      | true => exact absurd hb ha
      | false => rw [hb] at h; simpa using h

theorem find?_map_upd_miss (k v k' : String) (hne : ¬ k' = k) :
    ∀ d : TCDict,
      List.find? (fun p => p.1 == k')
        (d.map (fun p => if p.1 == k then (k, v) else p))
        = List.find? (fun p => p.1 == k') d := by
  intro d
  induction d with
  | nil => rfl
  | cons a d ih =>
    by_cases ha : (a.1 == k) = true
    · have hak : a.1 = k := eq_of_beq ha
      have hmiss : ¬ (a.1 == k') = true := by
        rw [hak]
        intro hb
        exact hne (eq_of_beq hb).symm
      have hkv : ¬ (((k, v) : String × String).1 == k') = true := by
        intro hb
        exact hne (eq_of_beq hb).symm
      simp only [List.map_cons, if_pos ha]
      rw [List.find?_cons_of_neg (p := fun q : String × String => q.1 == k') _ hkv,
        List.find?_cons_of_neg (p := fun q : String × String => q.1 == k') _ hmiss]
      exact ih
    · simp only [List.map_cons, if_neg ha]
      by_cases hak : (a.1 == k') = true
      · rw [List.find?_cons_of_pos (p := fun q : String × String => q.1 == k') _ hak,
          List.find?_cons_of_pos (p := fun q : String × String => q.1 == k') _ hak]
      · rw [List.find?_cons_of_neg (p := fun q : String × String => q.1 == k') _ hak,
          List.find?_cons_of_neg (p := fun q : String × String => q.1 == k') _ hak]
        exact ih

/-- Lookup after a Python dict assignment: the assigned key now maps
to the new value, every other key is untouched. -/
theorem dictLookup_insert (d : TCDict) (k v k' : String) :
    dictLookup (dictInsert d k v) k' = if k' = k then some v else dictLookup d k' := by
  unfold dictInsert
  by_cases hany : d.any (fun p => p.1 == k) = true
  · rw [if_pos hany]
    by_cases hkk : k' = k
    · rw [if_pos hkk]
      subst hkk
      unfold dictLookup
      rw [find?_map_upd_hit k' v d hany]
      rfl
    · rw [if_neg hkk]
      unfold dictLookup
      rw [find?_map_upd_miss k v k' hkk d]
  · rw [if_neg hany]
    unfold dictLookup
    rw [List.find?_append]
    by_cases hkk : k' = k
    · rw [if_pos hkk]
      subst hkk
      have hnone : List.find? (fun p => p.1 == k') d = none := by
        rw [List.find?_eq_none]
        intro x hx
        have := List.any_eq_false.mp (Bool.of_not_eq_true hany) x hx
        exact this
      rw [hnone, Option.none_or,
        List.find?_cons_of_pos (p := fun q : String × String => q.1 == k') _ (beq_self_eq_true k')]
      rfl
    · rw [if_neg hkk]
      have hone : List.find? (fun p => p.1 == k') [(k, v)] = none := by
        rw [List.find?_eq_none]
        intro x hx
        rw [List.mem_singleton] at hx
        subst hx
        intro hbeq
        exact hkk (eq_of_beq hbeq).symm
      rw [hone, Option.or_none]

/-- The successful run of `parse_truecase_model`: if no model line is
all-whitespace, the fold succeeds and computes the pure fold of
`tcModelStep`. -/
theorem parse_ok_aux :
    ∀ (lines : List String) (d : TCDict), (∀ l ∈ lines, pySplitStr l ≠ []) →
      List.foldlM
        (fun d line =>
          match pySplitStr line with
          | [] => Except.error PyError.indexError
          | w :: _ => Except.ok (dictInsert d (pyLowerStr w) w))
        d lines = Except.ok (lines.foldl tcModelStep d) := by
  intro lines
  induction lines with
  | nil => intro d _; rfl
  | cons l rest ih =>
    intro d h
    rw [List.foldlM_cons, List.foldl_cons]
    cases hsp : pySplitStr l with
    | nil => exact absurd hsp (h l (List.mem_cons_self l rest))
    | cons w ws =>
      have hstep : tcModelStep d l = dictInsert d (pyLowerStr w) w := by
        unfold tcModelStep
        rw [hsp]
      rw [hstep]
      exact ih (dictInsert d (pyLowerStr w) w) (fun x hx => h x (List.mem_cons_of_mem l hx))

/-- Folding the model lines over any starting dict: a key's value is
the last-write-wins value from the lines, falling back to the
starting dict. -/
theorem foldl_tcModelStep_lookup :
    ∀ (lines : List String) (d : TCDict) (k : String),
      dictLookup (lines.foldl tcModelStep d) k
        = (lastWinsLookup lines k).or (dictLookup d k) := by
  intro lines
  induction lines with
  | nil =>
    intro d k
    unfold lastWinsLookup
    simp
  | cons l rest ih =>
    intro d k
    rw [List.foldl_cons, ih]
    have hlw : lastWinsLookup (l :: rest) k
        = (lastWinsLookup rest k).or
            (match pySplitStr l with
             | w :: _ => if pyLowerStr w == k then some w else none
             | [] => none) := by
      unfold lastWinsLookup
      rw [List.reverse_cons, List.findSome?_append]
      congr 1
      rw [List.findSome?_cons]
      cases pySplitStr l with
      | nil => rfl
      | cons w ws =>
        cases hik : (pyLowerStr w == k) <;> simp [hik]
    rw [hlw, Option.or_assoc]
    congr 1
    cases hsp : pySplitStr l with
    | nil =>
      have hstep : tcModelStep d l = d := by
        unfold tcModelStep
        rw [hsp]
      rw [hstep]
      rfl
    | cons w ws =>
      have hstep : tcModelStep d l = dictInsert d (pyLowerStr w) w := by
        unfold tcModelStep
        rw [hsp]
      rw [hstep, dictLookup_insert]
      by_cases hwk : pyLowerStr w = k
      · subst hwk
        rw [if_pos rfl]
        simp
      · rw [if_neg (fun hkk => hwk hkk.symm)]
        simp [hwk]

/-! ### The truecasing loop -/

/-- The in-place loop of `truecase_line` over indices `k, k+1, ...`
equals mapping the substitution over the unprocessed suffix. -/
theorem tc_loop (d : TCDict) :
    ∀ (n k : Nat) (ts : List String), ts.length = k + n →
      (List.range' k n).foldl (tcStep d) ts = ts.take k ++ (ts.drop k).map (substTok d) := by
  intro n
  induction n with
  | zero =>
    intro k ts hlen
    have hk : ts.length = k := by omega
    rw [show List.range' k 0 = [] from rfl]
    rw [← hk, List.take_length, List.drop_length]
    simp
  | succ n ih =>
    intro k ts hlen
    have hk : k < ts.length := by omega
    have hw := List.getElem?_eq_getElem hk
    rw [List.range'_succ, List.foldl_cons]
    have hset : ∀ v, ts.set k v = ts.take k ++ v :: ts.drop (k + 1) := by
      intro v
      rw [List.set_eq_take_append_cons_drop, if_pos hk]
    have htk : (ts.take k).length = k := by
      rw [List.length_take]
      omega
    have hdrop : ts.drop k = ts[k] :: ts.drop (k + 1) := List.drop_eq_getElem_cons hk
    cases hl : dictLookup d (pyLowerStr ts[k]) with
    | some v =>
      have hstep : tcStep d ts k = ts.set k v := by
        unfold tcStep
        simp only [hw, hl]
      rw [hstep, ih (k + 1) (ts.set k v) (by rw [List.length_set]; omega)]
      have hsub : substTok d ts[k] = v := by
        unfold substTok
        rw [hl]
      rw [hset v]
      have htake : (ts.take k ++ v :: ts.drop (k + 1)).take (k + 1)
          = ts.take k ++ [v] := by
        rw [show k + 1 = (ts.take k).length + 1 by rw [htk]]
        rw [List.take_append]
        rfl
      have hdrop2 : (ts.take k ++ v :: ts.drop (k + 1)).drop (k + 1)
          = ts.drop (k + 1) := by
        rw [show k + 1 = (ts.take k).length + 1 by rw [htk]]
        rw [List.drop_append]
        rfl
      rw [htake, hdrop2, hdrop, List.map_cons, hsub]
      simp
    | none =>
      have hstep : tcStep d ts k = ts := by
        unfold tcStep
        simp only [hw, hl]
      rw [hstep, ih (k + 1) ts (by omega)]
      have hsub : substTok d ts[k] = ts[k] := by
        unfold substTok
        rw [hl]
      rw [List.take_succ, hw, hdrop, List.map_cons, hsub, Option.toList_some,
        List.append_assoc]
      rfl

/-! ### Presenter and driver -/

theorem eq_empty_of_data (s : String) (h : s.data = []) : s = "" := by
  have hmk : String.mk s.data = String.mk [] := by rw [h]
  exact hmk

theorem append_ne_empty_left (a b : String) (ha : a ≠ "") : a ++ b ≠ "" := by
  intro h
  have hd : a.data ++ b.data = [] := by
    have hc := congrArg String.data h
    rw [String.data_append] at hc
    exact hc
  exact ha (eq_empty_of_data a (List.append_eq_nil.mp hd).1)

theorem print_hyp_str_ne_empty (n : Nat) (r h : String) : print_hyp_str n r h ≠ "" := by
  unfold print_hyp_str
  apply append_ne_empty_left
  apply append_ne_empty_left
  apply append_ne_empty_left
  apply append_ne_empty_left
  decide

theorem print_hyp_str_match (m : Nat) (r h : String) (hrh : r = h) :
    print_hyp_str m r h = "MT" ++ toString m ++ ": " ++ ":-) " ++ h := by
  unfold print_hyp_str
  rw [if_pos (by rw [hrh]; exact beq_self_eq_true h)]

theorem print_hyp_str_miss (m : Nat) (r h : String) (hrh : ¬ r = h) :
    print_hyp_str m r h = "MT" ++ toString m ++ ": " ++ "    " ++ h := by
  unfold print_hyp_str
  rw [if_neg (fun hb => hrh (eq_of_beq hb))]

theorem print_hyp_str_empty_pair (m : Nat) :
    print_hyp_str m "" "" = "MT" ++ toString m ++ ": :-) " := by
  rw [print_hyp_str_match m "" "" rfl, String.append_empty, String.append_assoc,
    (by decide : (": " ++ ":-) " : String) = ": :-) ")]

theorem countBlank_append (l₁ l₂ : List String) :
    countBlank (l₁ ++ l₂) = countBlank l₁ + countBlank l₂ := by
  induction l₁ with
  | nil =>
    show countBlank l₂ = countBlank [] + countBlank l₂
    show countBlank l₂ = 0 + countBlank l₂
    omega
  | cons a l ih =>
    show (if (a == "") = true then 1 else 0) + countBlank (l ++ l₂)
        = (if (a == "") = true then 1 else 0) + countBlank l + countBlank l₂
    rw [ih]
    omega

theorem countBlank_cons_ne (a : String) (l : List String) (ha : a ≠ "") :
    countBlank (a :: l) = countBlank l := by
  show (if (a == "") = true then 1 else 0) + countBlank l = countBlank l
  rw [if_neg (fun hb => ha (eq_of_beq hb))]
  omega

theorem countBlank_hyp_outputs (cmd : CmdArgs) (f : List String → String) (d : TCDict)
    (refl : String) : ∀ (n : Nat) (hls : List String),
    countBlank (hyp_outputs cmd f d refl n hls) = 0 := by
  intro n hls
  induction hls generalizing n with
  | nil => rfl
  | cons a hls ih =>
    unfold hyp_outputs
    rw [countBlank_cons_ne _ _ (print_hyp_str_ne_empty _ _ _)]
    exact ih (n + 1)

/-- Each printed group contains exactly one blank line: the trailing
group separator. -/
theorem countBlank_group (cmd : CmdArgs) (f : List String → String)
    (g : String → String → String) (d : TCDict) (s : String) (r : Option String)
    (hls : List String) : countBlank (group_lines cmd f g d s r hls) = 1 := by
  have href : ∀ ro, countBlank (refOut cmd f d ro) = 0 := by
    intro ro
    cases ro with
    | none => rfl
    | some rl =>
      unfold refOut
      rw [countBlank_cons_ne _ _ (append_ne_empty_left "Ref:     " _ (by decide))]
      rfl
  have hgoog : ∀ refl sl m, countBlank (googleOut cmd f g refl sl m) = 0 := by
    intro refl sl m
    unfold googleOut
    cases cmd.google with
    | none => rfl
    | some tgt =>
      show countBlank (if (tgt == "") = true then []
        else [print_hyp_str (m + 1) refl (process_line cmd (g sl tgt) f [])]) = 0
      by_cases ht : (tgt == "") = true
      · rw [if_pos ht]
        rfl
      · rw [if_neg ht]
        rw [countBlank_cons_ne _ _ (print_hyp_str_ne_empty _ _ _)]
        rfl
  unfold group_lines
  rw [countBlank_cons_ne _ _
    (append_ne_empty_left "Src:     " _ (by decide))]
  rw [countBlank_append, countBlank_append, countBlank_append]
  rw [countBlank_hyp_outputs, href, hgoog]
  show 0 + (0 + (0 + ((if (("" : String) == "") = true then 1 else 0) + countBlank []))) = 1
  rw [if_pos (beq_self_eq_true "")]
  show 0 + (0 + (0 + (1 + 0))) = 1
  omega

/-- With a truthy detok value the loop never raises, and the number
of printed groups is one per source line until the source is
exhausted or the line cap is reached, regardless of how long the
reference and hypothesis streams are. -/
theorem process_lines_aux_ok (cmd : CmdArgs) (f : List String → String)
    (g : String → String → String) (d : TCDict)
    (ht : ¬ (cmd.detok == "") = true) :
    ∀ (src : List String) (n : Nat) (ref : Option (List String))
      (hyps : List (List String)),
      ∃ out, process_lines_aux cmd f g d n src ref hyps = Except.ok out
        ∧ countBlank out = min (cmd.head - n) src.length := by
  intro src
  induction src with
  | nil =>
    intro n ref hyps
    exact ⟨[], rfl, by simp [countBlank]⟩
  | cons s rest ih =>
    intro n ref hyps
    unfold process_lines_aux
    by_cases hn : n + 1 > cmd.head
    · rw [if_pos hn]
      refine ⟨[], rfl, ?_⟩
      simp only [countBlank, List.length_cons]
      omega
    · rw [if_neg hn, if_neg ht]
      obtain ⟨out, hout, hcount⟩ := ih (n + 1) (ref.map (fun rl => (readline rl).2))
        (hyps.map (fun hl => (readline hl).2))
      rw [hout]
      refine ⟨_, rfl, ?_⟩
      rw [countBlank_append, countBlank_group, hcount]
      simp only [List.length_cons]
      omega

/-- With a falsy detok value (only reachable via `--detok ''`) the
first iteration that passes the `head` check raises
`UnboundLocalError` before printing anything: the unconditional use
of the local `detok` at line 111. -/
theorem process_lines_aux_unbound (cmd : CmdArgs) (f : List String → String)
    (g : String → String → String) (d : TCDict) (s : String) (rest : List String)
    (n : Nat) (ref : Option (List String)) (hyps : List (List String))
    (ht : (cmd.detok == "") = true) (hn : ¬ n + 1 > cmd.head) :
    process_lines_aux cmd f g d n (s :: rest) ref hyps
      = Except.error PyError.unboundLocalError := by
  unfold process_lines_aux
  rw [if_neg hn, if_pos ht]

theorem hyp_outputs_length (cmd : CmdArgs) (f : List String → String) (d : TCDict)
    (refl : String) : ∀ (hls : List String) (n : Nat),
    (hyp_outputs cmd f d refl n hls).length = hls.length := by
  intro hls
  induction hls with
  | nil => intro n; rfl
  | cons a hls ih =>
    intro n
    unfold hyp_outputs
    rw [List.length_cons, List.length_cons, ih (n + 1)]

theorem hyp_outputs_getElem? (cmd : CmdArgs) (f : List String → String) (d : TCDict)
    (refl : String) : ∀ (hls : List String) (n i : Nat) (h : String), hls[i]? = some h →
      (hyp_outputs cmd f d refl n hls)[i]?
        = some (print_hyp_str (n + i) refl (process_line cmd h f d)) := by
  intro hls
  induction hls with
  | nil =>
    intro n i h hh
    simp at hh
  | cons a hls ih =>
    intro n i h hh
    cases i with
    | zero =>
      have hah : a = h := by simpa using hh
      subst hah
      simp only [hyp_outputs, List.getElem?_cons_zero]
      rfl
    | succ i =>
      have hh₂ : hls[i]? = some h := by simpa using hh
      have hrec := ih (n + 1) i h hh₂
      simp only [hyp_outputs, List.getElem?_cons_succ]
      rw [hrec, show n + 1 + i = n + (i + 1) from by omega]

/-- With no reference configured, the reference line is the empty
string; a hypothesis that normalizes to the empty string is therefore
rendered with the `":-)"` match marker. -/
theorem group_lines_no_ref_empty_hyp (cmd : CmdArgs) (f : List String → String)
    (g : String → String → String) (d : TCDict) (src : String) (hls : List String)
    (i : Nat) (h : String) (hh : hls[i]? = some h)
    (hp : process_line cmd h f d = "") :
    (group_lines cmd f g d src none hls)[i + 1]?
      = some ("MT" ++ toString (i + 1) ++ ": :-) ") := by
  have hi : i < hls.length := (List.getElem?_eq_some.mp hh).1
  unfold group_lines
  rw [List.getElem?_cons_succ]
  rw [show refOut cmd f d none = [] from rfl, List.nil_append]
  rw [List.getElem?_append, if_pos (by
    rw [List.length_append, hyp_outputs_length]
    omega)]
  rw [List.getElem?_append, if_pos (by rw [hyp_outputs_length]; omega)]
  rw [hyp_outputs_getElem? cmd f d (refLineOf cmd f d none) hls 1 i h hh, hp]
  rw [show refLineOf cmd f d none = "" from rfl]
  rw [show (1 : Nat) + i = i + 1 from by omega]
  rw [print_hyp_str_empty_pair]

/-- A blank model line makes the fold of `parse_truecase_model` fail
with `IndexError`, from any starting dict. -/
theorem parse_err_aux :
    ∀ (lines : List String) (d : TCDict), (∃ l ∈ lines, pySplitStr l = []) →
      List.foldlM
        (fun d line =>
          match pySplitStr line with
          | [] => Except.error PyError.indexError
          | w :: _ => Except.ok (dictInsert d (pyLowerStr w) w))
        d lines = Except.error PyError.indexError := by
  intro lines
  induction lines with
  | nil =>
    intro d h
    rcases h with ⟨l, hl, _⟩
    exact absurd hl (List.not_mem_nil l)
  | cons a rest ih =>
    intro d h
    rw [List.foldlM_cons]
    cases hsp : pySplitStr a with
    | nil => rfl
    | cons w ws =>
      rcases h with ⟨l, hl, hle⟩
      rcases List.mem_cons.mp hl with rfl | hmem
      · rw [hsp] at hle
        exact absurd hle (List.cons_ne_nil w ws)
      · exact ih (dictInsert d (pyLowerStr w) w) ⟨l, hmem, hle⟩

/-! ### The claims -/

/-- C1 (code bug in `main`): the claim says that without `--truecase`
the CaseModel loader is not invoked and an empty mapping is used.  In
the code, `main` calls `parse_truecase_model(cmd_args.truecase)`
unconditionally (line 169); with the argparse default
`truecase = None` this is `open(None)`, which raises `TypeError`, so
startup always fails when `--truecase` is absent — whatever files
exist.  This theorem evaluates the embedded startup at the failing
input. -/
theorem c1_startup_loader_always_invoked :
    (∀ fs : FileSys, startup_load_truecase fs defaultCmdArgs
        = Except.error PyError.typeError)
    ∧ startup_load_truecase [("corpus.txt", ["hello world"])] defaultCmdArgs
        = Except.error PyError.typeError := by
  constructor
  · intro fs
    rfl
  · rfl

/-- C2 counterexample: with the argparse defaults (no `--detok` flag,
so `detok = "en"`), `process_line` *does* run the detokenization step:
on input `"a b"` with a detokenizer that concatenates its tokens the
result is `"ab"`, whereas the same invocation with the step disabled
(`--detok ''`) leaves `"a b"`. -/
theorem c2_detok_default_enables_step :
    process_line defaultCmdArgs "a b" String.join []
      ≠ process_line { defaultCmdArgs with detok := "" } "a b" String.join []
    ∧ process_line defaultCmdArgs "a b" String.join [] = "ab"
    ∧ process_line { defaultCmdArgs with detok := "" } "a b" String.join [] = "a b" :=
  ⟨by decide, by decide, by decide⟩

/-- C2 (amended): the detokenization step runs exactly when the
`detok` option value is a nonempty string.  Enabling direction,
universally: for every configuration with a nonempty detok language,
every line and every collaborator, the normalized line *is* the
collaborator's output on the whitespace-split of the
rstripped/cased/BPE-stripped line, apostrophe-fixed (first conjunct).
Disabling direction, universally: with an empty language string the
collaborator is never consulted (second conjunct).  The argparse
default is the nonempty `"en"` (third conjunct), so an invocation
without `--detok` detokenizes every line; the fourth conjunct
evaluates one such default-configuration line. -/
theorem c2_detok_iff_nonempty_lang :
    (∀ (cmd : CmdArgs) (line : String) (f : List String → String) (d : TCDict),
        cmd.detok ≠ "" →
        process_line cmd line f d
          = pyReplace (f (pySplitStr (bpeStep cmd (caseStep cmd d (pyRstrip line)))))
              "&apos;" aposStr)
    ∧ (∀ (cmd : CmdArgs) (line : String) (f g : List String → String) (d : TCDict),
        cmd.detok = "" → process_line cmd line f d = process_line cmd line g d)
    ∧ defaultCmdArgs.detok = "en"
    ∧ process_line defaultCmdArgs "a b" String.join [] = "ab" := by
  refine ⟨?_, ?_, rfl, rfl⟩
  · intro cmd line f d h
    unfold process_line detokStep
    rw [if_neg (fun hb => h (eq_of_beq hb))]
  · intro cmd line f g d h
    unfold process_line detokStep
    rw [h]
    simp

/-- C2 witness: the enabling direction at the argparse default
(`"en"` is nonempty) and the disabling direction at `--detok ''`. -/
theorem c2_detok_iff_nonempty_lang_witness :
    process_line defaultCmdArgs "one  two" String.join []
      = pyReplace (String.join (pySplitStr (bpeStep defaultCmdArgs
          (caseStep defaultCmdArgs [] (pyRstrip "one  two"))))) "&apos;" aposStr
    ∧ process_line { defaultCmdArgs with detok := "" } "x y" (fun _ => "AAA") []
        = process_line { defaultCmdArgs with detok := "" } "x y" (fun _ => "BBB") [] :=
  ⟨c2_detok_iff_nonempty_lang.1 defaultCmdArgs "one  two" String.join [] (by decide),
    c2_detok_iff_nonempty_lang.2.1 _ "x y" _ _ [] rfl⟩

/-- C3: on a model file none of whose lines is all-whitespace,
`parse_truecase_model` succeeds, and the resulting mapping sends each
key `k` to the first token of the last line whose lowercased first
token is `k` (last-write-wins). -/
theorem c3_truecase_model_last_write_wins (lines : List String)
    (h : ∀ l ∈ lines, pySplitStr l ≠ []) :
    ∃ d, parse_truecase_model lines = Except.ok d ∧
      ∀ k, dictLookup d k = lastWinsLookup lines k := by
  refine ⟨lines.foldl tcModelStep [], ?_, ?_⟩
  · unfold parse_truecase_model
    exact parse_ok_aux lines [] h
  · intro k
    rw [foldl_tcModelStep_lookup lines [] k]
    show (lastWinsLookup lines k).or none = _
    rw [Option.or_none]

/-- C3 witness: the spec's example — lines `"NATO foo"` then
`"nato bar"` collide on the key `"nato"`, and the later line wins,
yielding exactly the mapping `{"nato": "nato"}`. -/
theorem c3_truecase_model_last_write_wins_witness :
    (∃ d, parse_truecase_model ["NATO foo", "nato bar"] = Except.ok d ∧
      ∀ k, dictLookup d k = lastWinsLookup ["NATO foo", "nato bar"] k)
    ∧ parse_truecase_model ["NATO foo", "nato bar"] = Except.ok [("nato", "nato")] :=
  ⟨c3_truecase_model_last_write_wins ["NATO foo", "nato bar"] (by decide), by rfl⟩

/-- C4: `truecase_line` (the in-place loop of the source) equals the
specification's description — split into whitespace tokens, replace
each token whose lowercased form is a key of the mapping with the
mapped value, leave other tokens unchanged, rejoin with single
spaces — together with the spec's concrete examples, including the
collapse of internal whitespace runs to one space. -/
theorem c4_truecase_line_matches_spec :
    (∀ (line : String) (d : TCDict), truecase_line line d = truecase_spec line d)
    ∧ truecase_line "the NATO alliance" [("nato", "NATO")] = "the NATO alliance"
    ∧ truecase_line "the nato alliance" [("nato", "NATO")] = "the NATO alliance"
    ∧ truecase_line "the \t nato  alliance" [("nato", "NATO")] = "the NATO alliance" := by
  refine ⟨?_, by decide, by decide, by decide⟩
  intro line d
  unfold truecase_line truecase_spec
  rw [List.range_eq_range',
    tc_loop d (pySplitStr line).length 0 (pySplitStr line) (by omega)]
  rfl

/-- C5: when `--lc` is set, `process_line` lowercases the line and the
truecase step never runs: the result is the pipeline without any
truecase substitution (first conjunct), and is independent of the
loaded truecase dict (second conjunct). -/
theorem c5_lowercase_wins (cmd : CmdArgs) (line : String) (f : List String → String)
    (d d₂ : TCDict) (h : cmd.lc = true) :
    process_line cmd line f d
      = pyReplace (detokStep cmd f (bpeStep cmd (pyLowerStr (pyRstrip line))))
          "&apos;" aposStr
    ∧ process_line cmd line f d = process_line cmd line f d₂ := by
  have hc : ∀ d' : TCDict, caseStep cmd d' (pyRstrip line) = pyLowerStr (pyRstrip line) := by
    intro d'
    unfold caseStep
    rw [h]
    simp
  constructor
  · unfold process_line
    rw [hc]
  · unfold process_line
    rw [hc, hc]

/-- C5 witness: `--lc` together with a truecase model that would
uppercase `"nato"`: the line is lowercased, `NATO` is *not* restored,
and even the internal double space survives (no truecase re-join). -/
theorem c5_lowercase_wins_witness :
    process_line
      { lc := true, truecase := some "model.tc", del_bpe := false, detok := "",
        head := 100, google := none }
      "The NATO  x" (fun _ => "ZZZ") [("nato", "NATO")] = "the nato  x" := by
  rw [(c5_lowercase_wins _ "The NATO  x" (fun _ => "ZZZ") [("nato", "NATO")]
    [("nato", "NATO")] rfl).1]
  decide

/-- C6: `print_hyp` renders `MT<k>: ` and then the `":-) "` match
marker exactly when the (normalized) hypothesis equals the
(normalized) reference byte for byte, and four spaces of padding
otherwise. -/
theorem c6_match_marker_iff (n : Nat) (r h : String) :
    (r = h → print_hyp_str n r h = "MT" ++ toString n ++ ": " ++ ":-) " ++ h)
    ∧ (r ≠ h → print_hyp_str n r h = "MT" ++ toString n ++ ": " ++ "    " ++ h) :=
  ⟨fun hrh => print_hyp_str_match n r h hrh, fun hrh => print_hyp_str_miss n r h hrh⟩

/-- C6 witness: the spec's example pair. -/
theorem c6_match_marker_iff_witness :
    print_hyp_str 1 "the cat sat" "the cat sat" = "MT1: :-) the cat sat"
    ∧ print_hyp_str 1 "the cat sat" "the cat ran" = "MT1:     the cat ran" := by
  constructor
  · rw [(c6_match_marker_iff 1 "the cat sat" "the cat sat").1 rfl]
    decide
  · rw [(c6_match_marker_iff 1 "the cat sat" "the cat ran").2 (by decide)]
    decide

/-- C7: exhausted companion streams never end the run or raise.  The
only runs in which any stream is read at all are those with a bound
`detok` local (truthy detok value): with `--detok ''` the loop
raises `UnboundLocalError` on its first statement, before any read
(second conjunct).  In every run that does read, the number of
printed groups is `min head (number of source lines)` whatever the
reference/hypothesis stream lengths — exhausted companions yield `''`
and the loop goes on (first conjunct).  A concrete default-detok run
whose reference and hypothesis streams are one line short still
prints the second group, with empty lines read from the exhausted
streams (third conjunct). -/
theorem c7_run_survives_exhausted_streams :
    (∀ (cmd : CmdArgs) (f : List String → String) (g : String → String → String)
        (d : TCDict) (src : List String) (ref : Option (List String))
        (hyps : List (List String)), cmd.detok ≠ "" →
        ∃ out, process_lines cmd f g d src ref hyps = Except.ok out
          ∧ countBlank out = min cmd.head src.length)
    ∧ (∀ (cmd : CmdArgs) (f : List String → String) (g : String → String → String)
        (d : TCDict) (s : String) (rest : List String) (ref : Option (List String))
        (hyps : List (List String)), cmd.detok = "" → 1 ≤ cmd.head →
        process_lines cmd f g d (s :: rest) ref hyps
          = Except.error PyError.unboundLocalError)
    ∧ process_lines
        { lc := false, truecase := none, del_bpe := false, detok := "en",
          head := 100, google := none }
        (fun ts => String.intercalate " " ts) (fun _ _ => "") []
        ["a", "b"] (some ["r1"]) [["x"]]
        = Except.ok ["Src:     a", "Ref:     r1", "MT1:     x", "",
            "Src:     b", "Ref:     ", "MT1: :-) ", ""] := by
  refine ⟨?_, ?_, ?_⟩
  · intro cmd f g d src ref hyps ht
    unfold process_lines
    obtain ⟨out, hout, hcount⟩ := process_lines_aux_ok cmd f g d
      (fun hb => ht (eq_of_beq hb)) src 0 ref hyps
    exact ⟨out, hout, by rw [hcount, Nat.sub_zero]⟩
  · intro cmd f g d s rest ref hyps ht hh
    unfold process_lines
    exact process_lines_aux_unbound cmd f g d s rest 0 ref hyps (by simp [ht]) (by omega)
  · rfl

/-- C7 witness: a truthy-detok run with an exhausted hypothesis
stream produces three groups; the `--detok ''` run raises before
reading anything. -/
theorem c7_run_survives_exhausted_streams_witness :
    (∃ out, process_lines
        { lc := false, truecase := none, del_bpe := false, detok := "en",
          head := 100, google := none }
        (fun ts => String.intercalate " " ts) (fun _ _ => "") []
        ["s1", "s2", "s3"] none [["h"]] = Except.ok out
      ∧ countBlank out = min 100 3)
    ∧ process_lines
        { lc := false, truecase := none, del_bpe := false, detok := "",
          head := 100, google := none }
        (fun ts => String.intercalate " " ts) (fun _ _ => "") [] ["a"] none [[]]
        = Except.error PyError.unboundLocalError :=
  ⟨c7_run_survives_exhausted_streams.1 _ _ _ [] ["s1", "s2", "s3"] none [["h"]]
      (by decide),
    c7_run_survives_exhausted_streams.2.1 _ _ _ [] "a" [] none [[]] rfl (by decide)⟩

/-- C8 counterexample: with no collaborator features enabled,
`process_line` applied twice can differ from `process_line` applied
once.  Two witnesses: (a) BPE stripping of `"@@@ @ x"` produces
`"@@ x"`, which a second pass strips further to `"x"`; (b) with a
truecase model containing `"don't"`, the line `"DON&apos;T"`
normalizes to `"DON'T"`, which a second pass truecases to `"don't"`
(the `&apos;` fix feeds the truecaser new material). -/
theorem c8_normalize_not_idempotent :
    (process_line
        { lc := false, truecase := none, del_bpe := true, detok := "",
          head := 100, google := none }
        (process_line
          { lc := false, truecase := none, del_bpe := true, detok := "",
            head := 100, google := none }
          "@@@ @ x" (fun _ => "") []) (fun _ => "") []
      ≠ process_line
          { lc := false, truecase := none, del_bpe := true, detok := "",
            head := 100, google := none }
          "@@@ @ x" (fun _ => "") [])
    ∧ (process_line
        { lc := false, truecase := some "model.tc", del_bpe := false, detok := "",
          head := 100, google := none }
        (process_line
          { lc := false, truecase := some "model.tc", del_bpe := false, detok := "",
            head := 100, google := none }
          "DON&apos;T" (fun _ => "")
          [("don" ++ aposStr ++ "t", "don" ++ aposStr ++ "t")])
        (fun _ => "") [("don" ++ aposStr ++ "t", "don" ++ aposStr ++ "t")]
      ≠ process_line
          { lc := false, truecase := some "model.tc", del_bpe := false, detok := "",
            head := 100, google := none }
          "DON&apos;T" (fun _ => "")
          [("don" ++ aposStr ++ "t", "don" ++ aposStr ++ "t")]) :=
  ⟨by decide, by decide⟩

/-- C8 (amended): with no collaborator features enabled *and* BPE
stripping and truecasing disabled, `process_line` is idempotent; and
in every configuration the output of `process_line` contains no
literal `&apos;` — the final step replaced every occurrence. -/
theorem c8_normalize_idem_reduced :
    (∀ (cmd : CmdArgs) (line : String) (f : List String → String) (d : TCDict),
        cmd.detok = "" → cmd.del_bpe = false → truthy cmd.truecase = false →
        process_line cmd (process_line cmd line f d) f d
          = process_line cmd line f d)
    ∧ (∀ (cmd : CmdArgs) (line : String) (f : List String → String) (d : TCDict),
        ¬ ("&apos;".data <:+: (process_line cmd line f d).data)) := by
  constructor
  · intro cmd line f d h1 h2 h3
    have hpl : process_line cmd line f d
        = pyReplace (caseStep cmd d (pyRstrip line)) "&apos;" aposStr := by
      unfold process_line
      rw [bpeStep_id cmd _ h2, detokStep_id cmd f _ h1]
    set mid := caseStep cmd d (pyRstrip line) with hmid
    have hmidTrail : noTrailWs mid.data := by
      rw [hmid, caseStep_no_truecase cmd d _ h3]
      cases hlc : cmd.lc with
      | false =>
        rw [if_neg Bool.false_ne_true]
        exact noTrailWs_pyRstrip line
      | true =>
        rw [if_pos rfl]
        exact noTrailWs_map_lowerChar _ (noTrailWs_pyRstrip line)
    have hcaseOut : caseStep cmd d (pyReplace mid "&apos;" aposStr)
        = pyReplace mid "&apos;" aposStr := by
      rw [caseStep_no_truecase cmd d _ h3]
      cases hlc : cmd.lc with
      | false => rw [if_neg Bool.false_ne_true]
      | true =>
        rw [if_pos rfl]
        show String.mk ((pyReplace mid "&apos;" aposStr).data.map lowerChar) = _
        rw [map_lowerChar_eq_self]
        intro c hc
        rcases subAll_mem "&apos;".data [apos] apos_pat_ne mid.data.length
            mid.data c (le_refl _) hc with hcm | hca
        · have hmid2 : mid = pyLowerStr (pyRstrip line) := by
            rw [hmid, caseStep_no_truecase cmd d _ h3, if_pos hlc]
          rw [hmid2] at hcm
          rcases List.mem_map.mp hcm with ⟨c₀, _, hc₀⟩
          rw [← hc₀]
          exact lowerChar_idem c₀
        · rw [List.mem_singleton.mp hca]
          exact lowerChar_apos
    rw [hpl]
    exact process_line_stable cmd f d mid h1 h2 hmidTrail hcaseOut
  · intro cmd line f d
    exact aposFix_no_occurrence _

/-- C8 witness: lowercasing configuration, a line with trailing
whitespace, doubled internal spaces and an `&apos;` artifact. -/
theorem c8_normalize_idem_reduced_witness :
    process_line
      { lc := true, truecase := none, del_bpe := false, detok := "",
        head := 100, google := none }
      (process_line
        { lc := true, truecase := none, del_bpe := false, detok := "",
          head := 100, google := none }
        "It&apos;s  OK " (fun _ => "Q") []) (fun _ => "Q") []
      = process_line
          { lc := true, truecase := none, del_bpe := false, detok := "",
            head := 100, google := none }
          "It&apos;s  OK " (fun _ => "Q") [] :=
  c8_normalize_idem_reduced.1 _ "It&apos;s  OK " (fun _ => "Q") [] rfl rfl rfl

/-- C9: when no reference is configured the comparison uses the empty
string as reference line, so every hypothesis normalizing to the
empty string (such as one read from an exhausted stream) is printed
with the `":-)"` marker.  First conjunct: per executing group — the
loop body runs only with a bound `detok` local, i.e. a nonempty detok
value, hence that hypothesis — for every index.  Second conjunct: a
concrete default-detok run with one source line, an exhausted single
hypothesis stream and no reference. -/
theorem c9_no_ref_empty_hyp_matches :
    (∀ (cmd : CmdArgs) (f : List String → String) (g : String → String → String)
        (d : TCDict) (src : String) (hls : List String) (i : Nat) (h : String),
        cmd.detok ≠ "" → hls[i]? = some h → process_line cmd h f d = "" →
        (group_lines cmd f g d src none hls)[i + 1]?
          = some ("MT" ++ toString (i + 1) ++ ": :-) "))
    ∧ process_lines
        { lc := false, truecase := none, del_bpe := false, detok := "en",
          head := 100, google := none }
        (fun ts => String.intercalate " " ts) (fun _ _ => "") [] ["a"] none [[]]
        = Except.ok ["Src:     a", "MT1: :-) ", ""] :=
  ⟨fun cmd f g d src hls i h _ hh hp =>
      group_lines_no_ref_empty_hyp cmd f g d src hls i h hh hp,
    rfl⟩

/-- C9 witness: a raw empty hypothesis line in a no-reference,
default-detok group is rendered with the match marker. -/
theorem c9_no_ref_empty_hyp_matches_witness :
    (group_lines
        { lc := false, truecase := none, del_bpe := false, detok := "en",
          head := 100, google := none }
        (fun ts => String.intercalate " " ts) (fun _ _ => "") [] "s" none [""])[0 + 1]?
      = some ("MT" ++ toString (0 + 1) ++ ": :-) ") :=
  c9_no_ref_empty_hyp_matches.1 _ (fun ts => String.intercalate " " ts) (fun _ _ => "")
    [] "s" [""] 0 "" (by decide) rfl (by decide)

/-- C10: a truecase model file containing an empty or whitespace-only
line makes `parse_truecase_model` fail with `IndexError` (the
`split_line[0]` access is unguarded) rather than skip the line. -/
theorem c10_blank_model_line_raises (lines : List String)
    (h : ∃ l ∈ lines, pySplitStr l = []) :
    parse_truecase_model lines = Except.error PyError.indexError := by
  unfold parse_truecase_model
  exact parse_err_aux lines [] h

/-- C10 witness: a single whitespace-only line. -/
theorem c10_blank_model_line_raises_witness :
    parse_truecase_model ["   "] = Except.error PyError.indexError :=
  c10_blank_model_line_raises ["   "] ⟨"   ", List.mem_cons_self _ _, by decide⟩

end MtMeld
